import Mathlib

/-!
Verification of the FrozenLake MDP solver (`bg2625_lake.py`).

The Python source is shallowly embedded: grid coordinates are pairs of
integers, Python floats are modelled as rationals, Python sets of cells are
lists, Python dictionaries keyed on states are functions (`Option`-valued
where a `KeyError` is observable), the ambient random generator is an
explicit stream `ℕ → ℚ` of draws in `[0,1)`, and the unbounded `while`
loops take a fuel argument and return `none` when the fuel runs out.

The solver methods of the Python class read the module-level global `lake`
for transition sampling while reading cell classification and rewards from
`self`; the embedding therefore passes both the instance (`self`) and the
global environment (`lake`) explicitly.
-/

/-- The four actions `('n', 's', 'e', 'w')` of the Python source. -/
inductive Act where
  | n : Act
  | s : Act
  | e : Act
  | w : Act
deriving DecidableEq, Repr

/-- The `FrozenLake` object: the fields set by `__init__`.  `states` is the
set of free cells computed by the constructor; the simulation parameters
(`gamma`, `success_prob`, rewards) are instance attributes that `__init__`
always sets to the same constants (see `FrozenLake.init`). -/
structure FrozenLake where
  initial_state : ℤ × ℤ
  width : ℕ
  height : ℕ
  targets : List (ℤ × ℤ)
  holes : List (ℤ × ℤ)
  blocked : List (ℤ × ℤ)
  actions : List Act
  states : List (ℤ × ℤ)
  gamma : ℚ
  success_prob : ℚ
  hole_reward : ℚ
  target_reward : ℚ
  living_reward : ℚ

/-- The free-state set built by `__init__`: all in-range coordinates that are
in none of `targets`, `holes`, `blocked` (x-major order, mirroring the nested
`for x in range(width): for y in range(height)` loops). -/
def mkStates (width height : ℕ) (targets holes blocked : List (ℤ × ℤ)) :
    List (ℤ × ℤ) :=
  (List.range width).flatMap (fun x =>
    (List.range height).filterMap (fun y =>
      let p : ℤ × ℤ := ((x : ℤ), (y : ℤ))
      if p ∉ targets ∧ p ∉ holes ∧ p ∉ blocked then some p else none))

/-- `FrozenLake.__init__(width, height, start, targets, blocked, holes)`. -/
def FrozenLake.init (width height : ℕ) (start : ℤ × ℤ)
    (targets blocked holes : List (ℤ × ℤ)) : FrozenLake :=
  { initial_state := start
    width := width
    height := height
    targets := targets
    holes := holes
    blocked := blocked
    actions := [Act.n, Act.s, Act.e, Act.w]
    states := mkStates width height targets holes blocked
    gamma := 9/10
    success_prob := 4/5
    hole_reward := -5
    target_reward := 1
    living_reward := -1/10 }

/-- The off-grid-or-blocked test of `get_transitions` (lines 56-58 and 64-66
of the source): `c[0] < 0 or c[0] > width-1 or c[1] < 0 or c[1] > height-1
or c in blocked`. -/
def FrozenLake.invalidDest (self : FrozenLake) (c : ℤ × ℤ) : Prop :=
  c.1 < 0 ∨ c.1 > (self.width : ℤ) - 1 ∨ c.2 < 0 ∨ c.2 > (self.height : ℤ) - 1 ∨
    c ∈ self.blocked

instance (self : FrozenLake) (c : ℤ × ℤ) : Decidable (self.invalidDest c) :=
  inferInstanceAs (Decidable (_ ∨ _ ∨ _ ∨ _ ∨ _))

/-- Lines 39-73 of `get_transitions`, after the `elif` chain has picked the
success destination and the two failure destinations: accumulate the valid
destinations in order (success first, then the two failure drifts), fold the
probability of each invalid destination into `remain_p`, and append a
stay-in-place entry when `remain_p > 0`. -/
def FrozenLake.trans_core (self : FrozenLake) (state success : ℤ × ℤ)
    (fail : List (ℤ × ℤ)) : List ((ℤ × ℤ) × ℚ) :=
  let acc0 : List ((ℤ × ℤ) × ℚ) × ℚ :=
    if self.invalidDest success then ([], self.success_prob)
    else ([(success, self.success_prob)], 0)
  let acc : List ((ℤ × ℤ) × ℚ) × ℚ :=
    fail.foldl (fun acc c =>
      if self.invalidDest c then (acc.1, acc.2 + (1 - self.success_prob) / 2)
      else (acc.1 ++ [(c, (1 - self.success_prob) / 2)], acc.2)) acc0
  if acc.2 > 0 then acc.1 ++ [(state, acc.2)] else acc.1

/-- `get_transitions(state, action)`: the `elif` chain on the action picks the
intended destination and the two perpendicular drifts, then `trans_core`
builds the distribution. -/
def FrozenLake.get_transitions (self : FrozenLake) (state : ℤ × ℤ)
    (action : Act) : List ((ℤ × ℤ) × ℚ) :=
  let x := state.1
  let y := state.2
  match action with
  | Act.n => self.trans_core state (x, y - 1) [(x + 1, y), (x - 1, y)]
  | Act.s => self.trans_core state (x, y + 1) [(x + 1, y), (x - 1, y)]
  | Act.e => self.trans_core state (x + 1, y) [(x, y - 1), (x, y + 1)]
  | Act.w => self.trans_core state (x - 1, y) [(x, y - 1), (x, y + 1)]

/-- Cumulative sums of a weight list, as `itertools.accumulate` inside
`random.choices`. -/
def cumsum (l : List ℚ) : List ℚ :=
  (l.foldl (fun acc w => (acc.1 + w, acc.2 ++ [acc.1 + w])) (0, [])).2

/-- `bisect.bisect(cum_weights, x, 0, hi)` with `hi = len - 1`, on a sorted
list: the number of entries `≤ x`, clamped to `len - 1`. -/
def pyChoicesIdx (cum : List ℚ) (x : ℚ) : ℕ :=
  if cum.countP (fun c => decide (c ≤ x)) ≤ cum.length - 1 then
    cum.countP (fun c => decide (c ≤ x))
  else cum.length - 1

/-- `move(state, action)`: sample a successor from the transition
distribution via `random.choices`, driven by one draw `u ∈ [0,1)`. -/
def FrozenLake.move (self : FrozenLake) (state : ℤ × ℤ) (action : Act)
    (u : ℚ) : ℤ × ℤ :=
  let transitions := self.get_transitions state action
  let cum := cumsum (transitions.map Prod.snd)
  let total := cum.getLastD 0
  (transitions.map Prod.fst).getD (pyChoicesIdx cum (u * total)) state

/-- A state-value table (the Python dictionary `values`; the source only ever
reads keys it has initialized, so a total function suffices here). -/
abbrev Vals := (ℤ × ℤ) → ℚ

/-- Pointwise dictionary update `values[s] = q`. -/
def upd (v : Vals) (s : ℤ × ℤ) (q : ℚ) : Vals :=
  fun s' => if s' = s then q else v s'

/-- Lines 224-232 of `value_iteration`: the reward/continuation value of a
destination `s1` — target reward, hole reward, `0` for blocked, else the
snapshot value `values1[s1]`. -/
def FrozenLake.s1_reward (self : FrozenLake) (values1 : Vals)
    (s1 : ℤ × ℤ) : ℚ :=
  if s1 ∈ self.targets then self.target_reward
  else if s1 ∈ self.holes then self.hole_reward
  else if s1 ∈ self.blocked then 0
  else values1 s1

/-- Lines 220-234: `trans_sum`, accumulated over the transition list obtained
from the global `lake`. -/
def vi_trans_sum (self lake : FrozenLake) (values1 : Vals) (state : ℤ × ℤ)
    (action : Act) : ℚ :=
  (lake.get_transitions state action).foldl
    (fun acc sp =>
      acc + sp.2 * (self.living_reward + self.gamma * self.s1_reward values1 sp.1))
    0

/-- Python's two-argument `max`, written with an explicit comparison so
that it evaluates inside the kernel (`max(a, b)` returns `b` iff `b > a`). -/
def qmax (a b : ℚ) : ℚ := if a < b then b else a

/-- Python's `abs`, written with an explicit comparison so that it
evaluates inside the kernel. -/
def qabs (x : ℚ) : ℚ := if x < 0 then -x else x

lemma qmax_eq_max (a b : ℚ) : qmax a b = max a b := by
  unfold qmax
  rw [max_def]
  split_ifs with h1 h2 h2 <;> linarith

lemma qabs_eq_abs (x : ℚ) : qabs x = |x| := by
  unfold qabs
  split_ifs with h
  · exact (abs_of_neg h).symm
  · exact (abs_of_nonneg (not_lt.mp h)).symm

/-- Python `max` over a list (first element is the initial accumulator; the
lists it is applied to in the source are never empty). -/
def pymax : List ℚ → ℚ
  | [] => 0
  | x :: xs => xs.foldl qmax x

/-- The value a sweep assigns to `state`: `max(action_values)` over the four
actions, all Q-values computed against the snapshot `values1`. -/
def bellman (self lake : FrozenLake) (values1 : Vals) (state : ℤ × ℤ) : ℚ :=
  pymax (self.actions.map (fun a => vi_trans_sum self lake values1 state a))

/-- One pass of the `for state in self.states` loop of `value_iteration`
(lines 217-242): update each state in turn, keep the running `delta`, and —
exactly as the source does — test `delta < threshold` after every single
state update, returning the snapshot `values1` at once when it fires
(`Sum.inl` is the function-level `return values1`; `Sum.inr` is falling
through to the next iteration of the `while`). -/
def viSweep (self lake : FrozenLake) (threshold : ℚ) (values1 : Vals) :
    List (ℤ × ℤ) → Vals → ℚ → Vals ⊕ Vals
  | [], values, _ => Sum.inr values
  | state :: rest, values, delta =>
      let mav := bellman self lake values1 state
      let values' := upd values state mav
      let delta' := qmax delta (qabs (mav - values1 state))
      if delta' < threshold then Sum.inl values1
      else viSweep self lake threshold values1 rest values' delta'

/-- The `while True` loop of `value_iteration`, fuelled: each round snapshots
`values1 = values.copy()`, resets `delta = 0` and runs the sweep. -/
def viLoop (self lake : FrozenLake) (threshold : ℚ) : ℕ → Vals → Option Vals
  | 0, _ => none
  | fuel + 1, values =>
      match viSweep self lake threshold values self.states values 0 with
      | Sum.inl r => some r
      | Sum.inr values' => viLoop self lake threshold fuel values'

/-- `value_iteration(threshold)`: start from the all-zero table. -/
def value_iteration (self lake : FrozenLake) (threshold : ℚ) (fuel : ℕ) :
    Option Vals :=
  viLoop self lake threshold fuel (fun _ => 0)

/-- A full sweep with no convergence test: updates every state and returns
the new table with the final `delta` (used to express the spec's version of
the stopping rule, and the code's behaviour after the test has failed once). -/
def viSweepFull (self lake : FrozenLake) (values1 : Vals) :
    List (ℤ × ℤ) → Vals → ℚ → Vals × ℚ
  | [], values, delta => (values, delta)
  | state :: rest, values, delta =>
      let mav := bellman self lake values1 state
      viSweepFull self lake values1 rest (upd values state mav)
        (qmax delta (qabs (mav - values1 state)))

/-- Modelled from the spec: value iteration as the specification states it —
complete a full synchronous sweep over every free state, compute `delta` as
the maximum over all free states of the absolute change, and return the
previous table only when that full-sweep `delta` is below the threshold. -/
def viLoopSpec (self lake : FrozenLake) (threshold : ℚ) :
    ℕ → Vals → Option Vals
  | 0, _ => none
  | fuel + 1, values =>
      let swept := viSweepFull self lake values self.states values 0
      if swept.2 < threshold then some values
      else viLoopSpec self lake threshold fuel swept.1

/-- Modelled from the spec: entry point of the spec's reading of
`value_iteration` (full-sweep `delta`, then the stopping test). -/
def value_iteration_spec (self lake : FrozenLake) (threshold : ℚ)
    (fuel : ℕ) : Option Vals :=
  viLoopSpec self lake threshold fuel (fun _ => 0)

/-- What the code's mid-sweep test amounts to: because the running `delta`
never decreases within a sweep and is tested after every state, the sweep
returns early precisely when the first state it processes changes by less
than the threshold.  This sweep tests only the first state and then runs
the rest unconditionally. -/
def viSweepFirst (self lake : FrozenLake) (threshold : ℚ) (values1 : Vals) :
    List (ℤ × ℤ) → Vals → Vals ⊕ Vals
  | [], values => Sum.inr values
  | state :: rest, values =>
      let mav := bellman self lake values1 state
      if qabs (mav - values1 state) < threshold then Sum.inl values1
      else Sum.inr (viSweepFull self lake values1 rest (upd values state mav)
          (qabs (mav - values1 state))).1

/-- The loop of `value_iteration_first`. -/
def viLoopFirst (self lake : FrozenLake) (threshold : ℚ) :
    ℕ → Vals → Option Vals
  | 0, _ => none
  | fuel + 1, values =>
      match viSweepFirst self lake threshold values self.states values with
      | Sum.inl r => some r
      | Sum.inr values' => viLoopFirst self lake threshold fuel values'

/-- The first-state characterisation of the code's stopping rule. -/
def value_iteration_first (self lake : FrozenLake) (threshold : ℚ)
    (fuel : ℕ) : Option Vals :=
  viLoopFirst self lake threshold fuel (fun _ => 0)

/-- First index of the maximum of a list (`numpy.argmax`): the index of the
first occurrence of the maximum value. -/
def pyargmax (l : List ℚ) : ℕ :=
  l.indexOf (pymax l)

/-- Lines 258-264 of `extract_policy`: the reward/continuation value of a
destination — the `elif` chain has no blocked branch, so a destination that
is neither a target nor a hole is looked up in the `values` dictionary, a
`KeyError` (here: `none`) if it is not a key. -/
def ep_state_reward (self : FrozenLake) (values : (ℤ × ℤ) → Option ℚ)
    (next_state : ℤ × ℤ) : Option ℚ :=
  if next_state ∈ self.targets then some self.target_reward
  else if next_state ∈ self.holes then some self.hole_reward
  else values next_state

/-- Lines 255-266: `trans_sum` of `extract_policy`, over the transition list
obtained from the global `lake`; fails if any destination lookup fails. -/
def ep_trans_sum (self lake : FrozenLake) (values : (ℤ × ℤ) → Option ℚ)
    (state : ℤ × ℤ) (action : Act) : Option ℚ :=
  (lake.get_transitions state action).foldl
    (fun acc sp => do
      let a ← acc
      let r ← ep_state_reward self values sp.1
      pure (a + sp.2 * (self.living_reward + self.gamma * r)))
    (some 0)

/-- `extract_policy(values)`: for each free state, compute the four action
sums and pick `self.actions[numpy.argmax(action_sum)]`; the policy
dictionary is an association list in insertion order. -/
def extract_policy (self lake : FrozenLake) (values : (ℤ × ℤ) → Option ℚ) :
    Option (List ((ℤ × ℤ) × Act)) :=
  self.states.foldl
    (fun acc state => do
      let policy ← acc
      let action_sum ← self.actions.mapM (fun a => ep_trans_sum self lake values state a)
      pure (policy ++ [(state, self.actions.getD (pyargmax action_sum) Act.n)]))
    (some [])

/-- A Q-table (the Python dictionary `Qvalues`, keyed by (state, action)). -/
abbrev QTable := (ℤ × ℤ) × Act → ℚ

/-- Pointwise Q-table update `Qvalues[(s, a)] = q`. -/
def updQ (t : QTable) (k : (ℤ × ℤ) × Act) (q : ℚ) : QTable :=
  fun k' => if k' = k then q else t k'

/-- `get_best_action_value(Qvalues, state)`: Python `max` over the keys of
the insertion-ordered action-value map — the first action (in `actions`
order) attaining the maximal Q-value, paired with that value. -/
def FrozenLake.get_best_action_value (self : FrozenLake) (Q : QTable)
    (state : ℤ × ℤ) : Act × ℚ :=
  match self.actions with
  | [] => (Act.n, 0)
  | a :: rest =>
      rest.foldl (fun b k => if Q (state, k) > b.2 then (k, Q (state, k)) else b)
        (a, Q (state, a))

/-- `random.choice(seq)` driven by one draw `u ∈ [0,1)`. -/
def pyChoice (l : List Act) (u : ℚ) : Act :=
  l.getD (u * l.length).floor.toNat Act.n

/-- The mutable state of the `while robot_count > 0` loop of `Qlearner`:
the Q-table, the remaining episode budget, the decayed rates, the current
state of the trajectory, and the position in the random stream. -/
structure QState where
  Q : QTable
  robot_count : ℤ
  current_alpha : ℚ
  current_epsilon : ℚ
  state : ℤ × ℤ
  i : ℕ

/-- One iteration of the `Qlearner` loop body (lines 294-329): ε-greedy
action choice, a sampled move through the global `lake`, the branch on the
sampled successor (target / hole / continue) with its Q-update, then the
annealing of `current_alpha` and `current_epsilon` once the remaining budget
has fallen below `0.2 * num_robots`. -/
def qlearnStep (self lake : FrozenLake) (alpha epsilon : ℚ)
    (num_robots : ℤ) (r : ℕ → ℚ) (qs : QState) : QState :=
  let final_alpha := 1/10 * alpha
  let final_epsilon := 1/10 * epsilon
  let best_action := (lake.get_best_action_value qs.Q qs.state).1
  let choice :=
    if r qs.i < qs.current_epsilon then (pyChoice self.actions (r (qs.i + 1)), qs.i + 2)
    else (best_action, qs.i + 1)
  let chosen_action := choice.1
  let next_state := lake.move qs.state chosen_action (r choice.2)
  let i' := choice.2 + 1
  let qs' : QState :=
    if next_state ∈ self.targets then
      { Q := updQ qs.Q (qs.state, chosen_action)
          ((1 - qs.current_alpha) * qs.Q (qs.state, chosen_action) +
            qs.current_alpha * (self.living_reward + self.gamma * self.target_reward))
        robot_count := qs.robot_count - 1
        current_alpha := qs.current_alpha
        current_epsilon := qs.current_epsilon
        state := self.initial_state
        i := i' }
    else if next_state ∈ self.holes then
      { Q := updQ qs.Q (qs.state, chosen_action)
          ((1 - qs.current_alpha) * qs.Q (qs.state, chosen_action) +
            qs.current_alpha * (self.living_reward + self.gamma * self.hole_reward))
        robot_count := qs.robot_count - 1
        current_alpha := qs.current_alpha
        current_epsilon := qs.current_epsilon
        state := self.initial_state
        i := i' }
    else
      { Q := updQ qs.Q (qs.state, chosen_action)
          ((1 - qs.current_alpha) * qs.Q (qs.state, chosen_action) +
            qs.current_alpha * (self.living_reward +
              self.gamma * (lake.get_best_action_value qs.Q next_state).2))
        robot_count := qs.robot_count
        current_alpha := qs.current_alpha
        current_epsilon := qs.current_epsilon
        state := next_state
        i := i' }
  if (qs'.robot_count : ℚ) < 1/5 * num_robots then
    { qs' with
      current_alpha :=
        if qs'.current_alpha > final_alpha then qs'.current_alpha - 1 / num_robots
        else qs'.current_alpha
      current_epsilon :=
        if qs'.current_epsilon > final_epsilon then qs'.current_epsilon - 1 / num_robots
        else qs'.current_epsilon }
  else qs'

/-- The fuelled `while robot_count > 0` loop of `Qlearner`. -/
def qlearnGo (self lake : FrozenLake) (alpha epsilon : ℚ) (num_robots : ℤ)
    (r : ℕ → ℚ) : ℕ → QState → QState
  | 0, qs => qs
  | n + 1, qs =>
      if qs.robot_count > 0 then
        qlearnGo self lake alpha epsilon num_robots r n
          (qlearnStep self lake alpha epsilon num_robots r qs)
      else qs

/-- The loop state at entry of `Qlearner`: zero Q-table, full budget, the
initial rates and the fixed start state. -/
def initQS (self : FrozenLake) (alpha epsilon : ℚ) (num_robots : ℤ) : QState :=
  { Q := fun _ => 0
    robot_count := num_robots
    current_alpha := alpha
    current_epsilon := epsilon
    state := self.initial_state
    i := 0 }

/-- `Qlearner(alpha, epsilon, num_robots)`: run the loop; `none` when the
fuel is exhausted before the budget reaches zero. -/
def Qlearner (self lake : FrozenLake) (alpha epsilon : ℚ) (num_robots : ℤ)
    (r : ℕ → ℚ) (fuel : ℕ) : Option QTable :=
  let qs := qlearnGo self lake alpha epsilon num_robots r fuel
    (initQS self alpha epsilon num_robots)
  if qs.robot_count > 0 then none else some qs.Q

/-- The `while True` loop of `simple_policy_rollout` (lines 89-95), fuelled:
returns `(success?, total reward, next random-stream position)`; `none` on
fuel exhaustion or on a `KeyError` in the policy dictionary. -/
def rolloutGo (self : FrozenLake) (policy : (ℤ × ℤ) → Option Act)
    (r : ℕ → ℚ) : ℕ → (ℤ × ℤ) → ℚ → ℕ → Option (Bool × ℚ × ℕ)
  | 0, _, _, _ => none
  | fuel + 1, state, rewards, i =>
      if state ∈ self.targets then some (true, rewards + self.target_reward, i)
      else if state ∈ self.holes then some (false, rewards + self.hole_reward, i)
      else
        match policy state with
        | none => none
        | some a =>
            rolloutGo self policy r fuel (self.move state a (r i))
              (rewards + self.living_reward) (i + 1)

/-- `simple_policy_rollout(policy)`: a rollout from the fixed start state. -/
def simple_policy_rollout (self : FrozenLake) (policy : (ℤ × ℤ) → Option Act)
    (r : ℕ → ℚ) (fuel : ℕ) (i : ℕ) : Option (Bool × ℚ × ℕ) :=
  rolloutGo self policy r fuel self.initial_state 0 i

/-- The `for i in range(t)` loop of `test_policy`: accumulate the success
count and total rewards over `t` rollouts, threading the random stream. -/
def tpGo (self : FrozenLake) (policy : (ℤ × ℤ) → Option Act) (r : ℕ → ℚ)
    (fuel : ℕ) : ℕ → ℕ → ℚ → ℚ → Option (ℚ × ℚ × ℕ)
  | 0, i, numSuccess, totalRewards => some (numSuccess, totalRewards, i)
  | t + 1, i, numSuccess, totalRewards =>
      match simple_policy_rollout self policy r fuel i with
      | none => none
      | some (b, rew, i') =>
          tpGo self policy r fuel t i'
            (if b then numSuccess + 1 else numSuccess) (totalRewards + rew)

/-- `test_policy(policy, t)`: run `t` rollouts and divide; the division by
`t = 0` is a `ZeroDivisionError` in the source, modelled by `none`. -/
def test_policy (self : FrozenLake) (policy : (ℤ × ℤ) → Option Act)
    (r : ℕ → ℚ) (fuel : ℕ) (t : ℕ) : Option (ℚ × ℚ) :=
  match tpGo self policy r fuel t 0 0 0 with
  | none => none
  | some (numSuccess, totalRewards, _) =>
      if t = 0 then none else some (numSuccess / t, totalRewards / t)

/-- `QValue_to_value(Qvalues)`: the max over actions of the Q-values of each
free state (the inner loop is a fold starting from `-inf`; over the four
concrete actions this is the same `max`, taking the fold over the action
list with the first Q-value as the base). -/
def QValue_to_value (self : FrozenLake) (Q : QTable) : Vals :=
  fun state => pymax (self.actions.map (fun a => Q (state, a)))


/-! ### Helper lemmas: the free-state set -/

lemma mem_mkStates {width height : ℕ} {targets holes blocked : List (ℤ × ℤ)}
    {p : ℤ × ℤ} :
    p ∈ mkStates width height targets holes blocked ↔
      0 ≤ p.1 ∧ p.1 < (width : ℤ) ∧ 0 ≤ p.2 ∧ p.2 < (height : ℤ) ∧
        p ∉ targets ∧ p ∉ holes ∧ p ∉ blocked := by
  unfold mkStates
  simp
  constructor
  · rintro ⟨x, hx, y, ⟨b, hb, rfl⟩, ⟨ht, hh, hbl⟩, rfl⟩
    refine ⟨by simp, by simpa using hx, by simp, by simpa using hb, ht, hh, hbl⟩
  · rintro ⟨h1, h2, h3, h4, h5, h6, h7⟩
    obtain ⟨a, b⟩ := p
    simp only at h1 h2 h3 h4 ⊢
    have ha : ((a.toNat : ℤ)) = a := by omega
    refine ⟨a.toNat, by omega, b, ⟨b.toNat, by omega, by omega⟩, ?_, ?_⟩
    · rw [ha]; exact ⟨h5, h6, h7⟩
    · rw [ha]

lemma states_init {width height : ℕ} {start : ℤ × ℤ}
    {targets blocked holes : List (ℤ × ℤ)} {p : ℤ × ℤ} :
    p ∈ (FrozenLake.init width height start targets blocked holes).states ↔
      0 ≤ p.1 ∧ p.1 < (width : ℤ) ∧ 0 ≤ p.2 ∧ p.2 < (height : ℤ) ∧
        p ∉ targets ∧ p ∉ holes ∧ p ∉ blocked :=
  mem_mkStates

lemma not_invalidDest_of_mem_states {width height : ℕ} {start : ℤ × ℤ}
    {targets blocked holes : List (ℤ × ℤ)} {p : ℤ × ℤ}
    (h : p ∈ (FrozenLake.init width height start targets blocked holes).states) :
    ¬ (FrozenLake.init width height start targets blocked holes).invalidDest p := by
  rw [states_init] at h
  rcases h with ⟨h1, h2, h3, h4, _, _, h7⟩
  rintro (hc | hc | hc | hc | hc)
  · omega
  · simp only [FrozenLake.init] at hc; omega
  · omega
  · simp only [FrozenLake.init] at hc; omega
  · exact h7 hc

/-! ### Helper lemmas: the transition model -/

/-- The mass that `get_transitions` redirects to "remain in place": the
success probability if the intended destination is off-grid or blocked, plus
`(1 - success_prob)/2` for each invalid drift destination.  (This is the
spec's description of the stay-in-place mass, compared below against the
`remain_p` accumulator of the code.) -/
def remainMass (self : FrozenLake) (su f1 f2 : ℤ × ℤ) : ℚ :=
  (if self.invalidDest su then self.success_prob else 0) +
  (if self.invalidDest f1 then (1 - self.success_prob) / 2 else 0) +
  (if self.invalidDest f2 then (1 - self.success_prob) / 2 else 0)

lemma trans_core_eq (self : FrozenLake) (st su f1 f2 : ℤ × ℤ) :
    self.trans_core st su [f1, f2] =
      (if self.invalidDest su then [] else [(su, self.success_prob)]) ++
      (if self.invalidDest f1 then [] else [(f1, (1 - self.success_prob) / 2)]) ++
      (if self.invalidDest f2 then [] else [(f2, (1 - self.success_prob) / 2)]) ++
      (if remainMass self su f1 f2 > 0 then [(st, remainMass self su f1 f2)] else []) := by
  unfold FrozenLake.trans_core remainMass
  by_cases h1 : self.invalidDest su <;> by_cases h2 : self.invalidDest f1 <;>
    by_cases h3 : self.invalidDest f2 <;>
    simp [h1, h2, h3] <;> split <;> simp

lemma mem_trans_core (self : FrozenLake) (st su f1 f2 : ℤ × ℤ)
    (hsp : 0 < self.success_prob) (hsp1 : self.success_prob < 1) {pr : (ℤ × ℤ) × ℚ} :
    pr ∈ self.trans_core st su [f1, f2] ↔
      (¬ self.invalidDest su ∧ pr = (su, self.success_prob)) ∨
      (¬ self.invalidDest f1 ∧ pr = (f1, (1 - self.success_prob) / 2)) ∨
      (¬ self.invalidDest f2 ∧ pr = (f2, (1 - self.success_prob) / 2)) ∨
      (remainMass self su f1 f2 ≠ 0 ∧ pr = (st, remainMass self su f1 f2)) := by
  have hw : (0:ℚ) < (1 - self.success_prob) / 2 := by linarith
  have hmid : (0:ℚ) < self.success_prob + (1 - self.success_prob) / 2 := by linarith
  have hbig : (0:ℚ) < self.success_prob + (1 - self.success_prob) / 2 +
      (1 - self.success_prob) / 2 := by linarith
  have h1sp : (0:ℚ) < 1 - self.success_prob := by linarith
  rw [trans_core_eq]
  by_cases h1 : self.invalidDest su <;> by_cases h2 : self.invalidDest f1 <;>
    by_cases h3 : self.invalidDest f2 <;>
    simp [h1, h2, h3, remainMass, hsp, hsp1, hw, hmid, hbig, h1sp,
      hsp.ne', hw.ne', hmid.ne', hbig.ne', h1sp.ne']

lemma trans_core_sum (self : FrozenLake) (st su f1 f2 : ℤ × ℤ)
    (hsp : 0 < self.success_prob) (hsp1 : self.success_prob < 1) :
    ((self.trans_core st su [f1, f2]).map Prod.snd).sum = 1 := by
  rw [trans_core_eq]
  by_cases h1 : self.invalidDest su <;> by_cases h2 : self.invalidDest f1 <;>
    by_cases h3 : self.invalidDest f2 <;>
    simp [h1, h2, h3, remainMass] <;> split <;> simp <;> linarith

lemma remainMass_nonneg (self : FrozenLake) (su f1 f2 : ℤ × ℤ)
    (hsp : 0 < self.success_prob) (hsp1 : self.success_prob < 1) :
    0 ≤ remainMass self su f1 f2 := by
  unfold remainMass
  split_ifs <;> linarith

/-- The intended destination of each action (the `success` variable of the
`elif` chain of `get_transitions`). -/
def successDest (state : ℤ × ℤ) (action : Act) : ℤ × ℤ :=
  match action with
  | Act.n => (state.1, state.2 - 1)
  | Act.s => (state.1, state.2 + 1)
  | Act.e => (state.1 + 1, state.2)
  | Act.w => (state.1 - 1, state.2)

/-- The two perpendicular drift destinations of each action (the `fail`
list of the `elif` chain of `get_transitions`). -/
def failDests (state : ℤ × ℤ) (action : Act) : (ℤ × ℤ) × (ℤ × ℤ) :=
  match action with
  | Act.n => ((state.1 + 1, state.2), (state.1 - 1, state.2))
  | Act.s => ((state.1 + 1, state.2), (state.1 - 1, state.2))
  | Act.e => ((state.1, state.2 - 1), (state.1, state.2 + 1))
  | Act.w => ((state.1, state.2 - 1), (state.1, state.2 + 1))

/-- The probability mass of the off-grid or blocked candidate destinations
of `(state, action)` — the spec's description of what the stay-in-place
entry accumulates. -/
def invalidMass (self : FrozenLake) (state : ℤ × ℤ) (action : Act) : ℚ :=
  remainMass self (successDest state action) (failDests state action).1
    (failDests state action).2

lemma get_transitions_as_core (self : FrozenLake) (state : ℤ × ℤ) (action : Act) :
    self.get_transitions state action =
      self.trans_core state (successDest state action)
        [(failDests state action).1, (failDests state action).2] := by
  cases action <;> rfl

lemma successDest_ne (state : ℤ × ℤ) (action : Act) :
    successDest state action ≠ state := by
  cases action <;> simp [successDest, Prod.ext_iff]

lemma failDests_ne (state : ℤ × ℤ) (action : Act) :
    (failDests state action).1 ≠ state ∧ (failDests state action).2 ≠ state := by
  cases action <;> simp [failDests, Prod.ext_iff]

lemma init_success_prob_pos (width height : ℕ) (start : ℤ × ℤ)
    (targets blocked holes : List (ℤ × ℤ)) :
    0 < (FrozenLake.init width height start targets blocked holes).success_prob := by
  norm_num [FrozenLake.init]

lemma init_success_prob_lt_one (width height : ℕ) (start : ℤ × ℤ)
    (targets blocked holes : List (ℤ × ℤ)) :
    (FrozenLake.init width height start targets blocked holes).success_prob < 1 := by
  norm_num [FrozenLake.init]

lemma not_invalidDest_bounds {L : FrozenLake} {p : ℤ × ℤ}
    (h : ¬ L.invalidDest p) :
    0 ≤ p.1 ∧ p.1 < (L.width : ℤ) ∧ 0 ≤ p.2 ∧ p.2 < (L.height : ℤ) ∧
      p ∉ L.blocked := by
  unfold FrozenLake.invalidDest at h
  push_neg at h
  exact ⟨by omega, by omega, by omega, by omega, h.2.2.2.2⟩

/-- The environment built by the `__main__` block of the source: the 8×8
lake with one target, three blocked cells and nine holes, which is both the
instance and the module-level global `lake`. -/
def mainLake : FrozenLake :=
  FrozenLake.init 8 8 (0, 0) [(3, 4)] [(3, 3), (2, 3), (2, 4)]
    [(4, 0), (4, 1), (3, 0), (3, 1), (6, 4), (6, 5), (0, 7), (0, 6), (1, 7)]

/-- Claim C2: for every free state `s` and action of a constructed lake,
`get_transitions(s, a)` is a list of (successor, probability) pairs whose
probabilities are all positive and sum to exactly 1, whose successors are
all in-bounds and unblocked, in which any entry for `s` itself carries
exactly the probability mass of the off-grid or blocked candidate
destinations, and that stay-in-place entry is present iff that mass is
non-zero. -/

theorem get_transitions_distribution
    (L : FrozenLake) (width height : ℕ) (start : ℤ × ℤ)
    (targets blocked holes : List (ℤ × ℤ))
    (hL : L = FrozenLake.init width height start targets blocked holes)
    (s : ℤ × ℤ) (a : Act) (hs : s ∈ L.states) :
    (∀ pr ∈ L.get_transitions s a, 0 < pr.2) ∧
    ((L.get_transitions s a).map Prod.snd).sum = 1 ∧
    (∀ pr ∈ L.get_transitions s a,
      0 ≤ pr.1.1 ∧ pr.1.1 < (L.width : ℤ) ∧ 0 ≤ pr.1.2 ∧ pr.1.2 < (L.height : ℤ) ∧
        pr.1 ∉ L.blocked) ∧
    (∀ q, (s, q) ∈ L.get_transitions s a → q = invalidMass L s a) ∧
    ((s, invalidMass L s a) ∈ L.get_transitions s a ↔ invalidMass L s a ≠ 0) := by
  have hsp : 0 < L.success_prob := hL ▸ init_success_prob_pos _ _ _ _ _ _
  have hsp1 : L.success_prob < 1 := hL ▸ init_success_prob_lt_one _ _ _ _ _ _
  have hw : (0:ℚ) < (1 - L.success_prob) / 2 := by linarith
  have hsv : ¬ L.invalidDest s := hL ▸ not_invalidDest_of_mem_states (hL ▸ hs)
  have hsu := successDest_ne s a
  have hf := failDests_ne s a
  have hmm : 0 ≤ remainMass L (successDest s a) (failDests s a).1 (failDests s a).2 :=
    remainMass_nonneg L _ _ _ hsp hsp1
  rw [get_transitions_as_core]
  refine ⟨?_, trans_core_sum L _ _ _ _ hsp hsp1, ?_, ?_, ?_⟩
  · intro pr hpr
    rw [mem_trans_core L _ _ _ _ hsp hsp1] at hpr
    rcases hpr with ⟨-, rfl⟩ | ⟨-, rfl⟩ | ⟨-, rfl⟩ | ⟨hne, rfl⟩
    · exact hsp
    · exact hw
    · exact hw
    · exact lt_of_le_of_ne hmm (Ne.symm hne)
  · intro pr hpr
    rw [mem_trans_core L _ _ _ _ hsp hsp1] at hpr
    rcases hpr with ⟨hv, rfl⟩ | ⟨hv, rfl⟩ | ⟨hv, rfl⟩ | ⟨-, rfl⟩
    · exact not_invalidDest_bounds hv
    · exact not_invalidDest_bounds hv
    · exact not_invalidDest_bounds hv
    · exact not_invalidDest_bounds hsv
  · intro q hq
    rw [mem_trans_core L _ _ _ _ hsp hsp1] at hq
    rcases hq with ⟨-, h⟩ | ⟨-, h⟩ | ⟨-, h⟩ | ⟨-, h⟩ <;>
      simp only [Prod.mk.injEq] at h
    · exact absurd h.1.symm hsu
    · exact absurd h.1.symm hf.1
    · exact absurd h.1.symm hf.2
    · exact h.2
  · constructor
    · intro hmem
      rw [mem_trans_core L _ _ _ _ hsp hsp1] at hmem
      rcases hmem with ⟨-, h⟩ | ⟨-, h⟩ | ⟨-, h⟩ | ⟨hne, h⟩ <;>
        simp only [Prod.mk.injEq] at h
      · exact absurd h.1.symm hsu
      · exact absurd h.1.symm hf.1
      · exact absurd h.1.symm hf.2
      · unfold invalidMass
        exact hne
    · intro hne
      rw [mem_trans_core L _ _ _ _ hsp hsp1]
      exact Or.inr (Or.inr (Or.inr ⟨hne, rfl⟩))

/-- Witness for C2: the distribution properties hold concretely for the
start state and action `n` of the `__main__` environment. -/
theorem get_transitions_distribution_witness :
    (∀ pr ∈ mainLake.get_transitions (0, 0) Act.n, 0 < pr.2) ∧
    ((mainLake.get_transitions (0, 0) Act.n).map Prod.snd).sum = 1 ∧
    (∀ pr ∈ mainLake.get_transitions (0, 0) Act.n,
      0 ≤ pr.1.1 ∧ pr.1.1 < (mainLake.width : ℤ) ∧ 0 ≤ pr.1.2 ∧
        pr.1.2 < (mainLake.height : ℤ) ∧ pr.1 ∉ mainLake.blocked) ∧
    (∀ q, ((0, 0), q) ∈ mainLake.get_transitions (0, 0) Act.n →
      q = invalidMass mainLake (0, 0) Act.n) ∧
    (((0, 0), invalidMass mainLake (0, 0) Act.n) ∈
        mainLake.get_transitions (0, 0) Act.n ↔
      invalidMass mainLake (0, 0) Act.n ≠ 0) :=
  get_transitions_distribution mainLake 8 8 (0, 0) [(3, 4)]
    [(3, 3), (2, 3), (2, 4)]
    [(4, 0), (4, 1), (3, 0), (3, 1), (6, 4), (6, 5), (0, 7), (0, 6), (1, 7)]
    rfl (0, 0) Act.n (by decide)

lemma get_transitions_succ_valid
    (L : FrozenLake) (width height : ℕ) (start : ℤ × ℤ)
    (targets blocked holes : List (ℤ × ℤ))
    (hL : L = FrozenLake.init width height start targets blocked holes)
    {s : ℤ × ℤ} (hs : s ∈ L.states) (a : Act) :
    ∀ pr ∈ L.get_transitions s a, ¬ L.invalidDest pr.1 := by
  have hsp : 0 < L.success_prob := hL ▸ init_success_prob_pos _ _ _ _ _ _
  have hsp1 : L.success_prob < 1 := hL ▸ init_success_prob_lt_one _ _ _ _ _ _
  have hsv : ¬ L.invalidDest s := hL ▸ not_invalidDest_of_mem_states (hL ▸ hs)
  rw [get_transitions_as_core]
  intro pr hpr
  rw [mem_trans_core L _ _ _ _ hsp hsp1] at hpr
  rcases hpr with ⟨hv, rfl⟩ | ⟨hv, rfl⟩ | ⟨hv, rfl⟩ | ⟨-, rfl⟩ <;>
    first
      | exact hv
      | exact hsv

lemma get_transitions_succ_classified
    (L : FrozenLake) (width height : ℕ) (start : ℤ × ℤ)
    (targets blocked holes : List (ℤ × ℤ))
    (hL : L = FrozenLake.init width height start targets blocked holes)
    {s : ℤ × ℤ} (hs : s ∈ L.states) (a : Act) :
    ∀ pr ∈ L.get_transitions s a,
      pr.1 ∈ L.targets ∨ pr.1 ∈ L.holes ∨ pr.1 ∈ L.states := by
  intro pr hpr
  have hv := get_transitions_succ_valid L width height start targets blocked holes
    hL hs a pr hpr
  have hb := not_invalidDest_bounds hv
  by_cases ht : pr.1 ∈ L.targets
  · exact Or.inl ht
  by_cases hh : pr.1 ∈ L.holes
  · exact Or.inr (Or.inl hh)
  refine Or.inr (Or.inr ?_)
  subst hL
  rw [states_init]
  simp only [FrozenLake.init] at hb ht hh
  exact ⟨hb.1, hb.2.1, hb.2.2.1, hb.2.2.2.1, ht, hh, hb.2.2.2.2⟩

/-- The four per-action Q-sums computed by `extract_policy` at one state. -/
def epActionSums (self lake : FrozenLake) (values : (ℤ × ℤ) → Option ℚ)
    (state : ℤ × ℤ) : Option (List ℚ) :=
  self.actions.mapM (fun a => ep_trans_sum self lake values state a)

/-- The action `extract_policy` assigns at one state (junk when a lookup
fails; `extract_policy` itself fails in that case). -/
def epAction (self lake : FrozenLake) (values : (ℤ × ℤ) → Option ℚ)
    (state : ℤ × ℤ) : Act :=
  match epActionSums self lake values state with
  | some l => self.actions.getD (pyargmax l) Act.n
  | none => Act.n

lemma ep_state_reward_isSome
    (L : FrozenLake) (values : (ℤ × ℤ) → Option ℚ)
    (hv : ∀ s ∈ L.states, (values s).isSome) {p : ℤ × ℤ}
    (hcls : p ∈ L.targets ∨ p ∈ L.holes ∨ p ∈ L.states) :
    (ep_state_reward L values p).isSome := by
  unfold ep_state_reward
  by_cases ht : p ∈ L.targets
  · simp [ht]
  by_cases hh : p ∈ L.holes
  · simp [ht, hh]
  rcases hcls with h | h | h
  · exact absurd h ht
  · exact absurd h hh
  · simp [ht, hh]
    exact hv p h

lemma ep_trans_sum_foldl_isSome
    (self : FrozenLake) (values : (ℤ × ℤ) → Option ℚ)
    (l : List ((ℤ × ℤ) × ℚ))
    (h : ∀ pr ∈ l, (ep_state_reward self values pr.1).isSome) :
    ∀ acc : ℚ,
      (l.foldl
        (fun acc sp => do
          let a ← acc
          let r ← ep_state_reward self values sp.1
          pure (a + sp.2 * (self.living_reward + self.gamma * r)))
        (some acc)).isSome := by
  induction l with
  | nil => intro acc; simp
  | cons hd tl ih =>
      intro acc
      obtain ⟨r, hr⟩ := Option.isSome_iff_exists.mp (h hd (by simp))
      simp only [List.foldl, Option.bind_eq_bind, Option.some_bind, hr]
      exact ih (fun pr hpr => h pr (by simp [hpr])) _

lemma ep_trans_sum_isSome
    (self lake : FrozenLake) (values : (ℤ × ℤ) → Option ℚ) (state : ℤ × ℤ)
    (action : Act)
    (h : ∀ pr ∈ lake.get_transitions state action,
      (ep_state_reward self values pr.1).isSome) :
    (ep_trans_sum self lake values state action).isSome :=
  ep_trans_sum_foldl_isSome self values _ h 0

lemma epActionSums_isSome
    (self lake : FrozenLake) (values : (ℤ × ℤ) → Option ℚ) (state : ℤ × ℤ)
    (ha : self.actions = [Act.n, Act.s, Act.e, Act.w])
    (h : ∀ a : Act, (ep_trans_sum self lake values state a).isSome) :
    (epActionSums self lake values state).isSome := by
  unfold epActionSums
  rw [ha]
  obtain ⟨qn, hqn⟩ := Option.isSome_iff_exists.mp (h Act.n)
  obtain ⟨qs, hqs⟩ := Option.isSome_iff_exists.mp (h Act.s)
  obtain ⟨qe, hqe⟩ := Option.isSome_iff_exists.mp (h Act.e)
  obtain ⟨qw, hqw⟩ := Option.isSome_iff_exists.mp (h Act.w)
  simp [List.mapM, List.mapM.loop, hqn, hqs, hqe, hqw]

lemma extract_policy_foldl
    (self lake : FrozenLake) (values : (ℤ × ℤ) → Option ℚ)
    (l : List (ℤ × ℤ))
    (h : ∀ s ∈ l, (epActionSums self lake values s).isSome) :
    ∀ acc : List ((ℤ × ℤ) × Act),
      (l.foldl
        (fun acc state => do
          let policy ← acc
          let action_sum ← self.actions.mapM
            (fun a => ep_trans_sum self lake values state a)
          pure (policy ++ [(state, self.actions.getD (pyargmax action_sum) Act.n)]))
        (some acc)) =
      some (acc ++ l.map (fun s => (s, epAction self lake values s))) := by
  induction l with
  | nil => intro acc; simp
  | cons hd tl ih =>
      intro acc
      obtain ⟨qs, hqs⟩ := Option.isSome_iff_exists.mp (h hd (by simp))
      have hact : epAction self lake values hd =
          self.actions.getD (pyargmax qs) Act.n := by
        unfold epAction
        rw [hqs]
      have hqs' : self.actions.mapM (fun a => ep_trans_sum self lake values hd a) =
          some qs := hqs
      have IH := ih (fun s hs => h s (by simp [hs]))
      rw [List.foldl_cons]
      simp only [Option.bind_eq_bind, Option.some_bind, hqs', Option.pure_def]
      simp only [Option.bind_eq_bind, Option.pure_def] at IH
      rw [IH]
      simp [hact]

lemma extract_policy_eq_map
    (self lake : FrozenLake) (values : (ℤ × ℤ) → Option ℚ)
    (h : ∀ s ∈ self.states, (epActionSums self lake values s).isSome) :
    extract_policy self lake values =
      some (self.states.map (fun s => (s, epAction self lake values s))) := by
  unfold extract_policy
  simpa using extract_policy_foldl self lake values self.states h []

/-- Claim C10: `extract_policy` handles only target, hole and free
destinations (no blocked branch), yet never faults for a value function
defined on all free states: every successor produced by `get_transitions`
from a free state is a target, a hole, or free, so the dictionary lookup
for a blocked or out-of-bounds coordinate is unreachable and the extraction
succeeds. -/
theorem extract_policy_no_fault
    (L : FrozenLake) (width height : ℕ) (start : ℤ × ℤ)
    (targets blocked holes : List (ℤ × ℤ))
    (hL : L = FrozenLake.init width height start targets blocked holes)
    (values : (ℤ × ℤ) → Option ℚ)
    (hv : ∀ s ∈ L.states, (values s).isSome) :
    (∀ s ∈ L.states, ∀ a : Act, ∀ pr ∈ L.get_transitions s a,
      pr.1 ∈ L.targets ∨ pr.1 ∈ L.holes ∨ pr.1 ∈ L.states) ∧
    (extract_policy L L values).isSome := by
  have hcls : ∀ s ∈ L.states, ∀ a : Act, ∀ pr ∈ L.get_transitions s a,
      pr.1 ∈ L.targets ∨ pr.1 ∈ L.holes ∨ pr.1 ∈ L.states :=
    fun s hs a => get_transitions_succ_classified L width height start targets
      blocked holes hL hs a
  refine ⟨hcls, ?_⟩
  have hsome : ∀ s ∈ L.states, (epActionSums L L values s).isSome := by
    intro s hs
    apply epActionSums_isSome L L values s (by rw [hL]; rfl)
    intro a
    apply ep_trans_sum_isSome
    intro pr hpr
    exact ep_state_reward_isSome L values hv (hcls s hs a pr hpr)
  rw [extract_policy_eq_map L L values hsome]
  rfl

/-- Witness for C10: on the `__main__` environment with the all-zero value
dictionary over exactly the free states, the classification holds and the
extraction succeeds. -/
theorem extract_policy_no_fault_witness :
    (∀ s ∈ mainLake.states, ∀ a : Act, ∀ pr ∈ mainLake.get_transitions s a,
      pr.1 ∈ mainLake.targets ∨ pr.1 ∈ mainLake.holes ∨ pr.1 ∈ mainLake.states) ∧
    (extract_policy mainLake mainLake
      (fun s => if s ∈ mainLake.states then some 0 else none)).isSome :=
  extract_policy_no_fault mainLake 8 8 (0, 0) [(3, 4)] [(3, 3), (2, 3), (2, 4)]
    [(4, 0), (4, 1), (3, 0), (3, 1), (6, 4), (6, 5), (0, 7), (0, 6), (1, 7)]
    rfl (fun s => if s ∈ mainLake.states then some 0 else none)
    (by intro s hs; simp [hs])

/-! ### Helper lemmas: value-iteration sweeps -/

lemma foldl_add_eq_sum {α : Type} (f : α → ℚ) (l : List α) :
    ∀ c : ℚ, l.foldl (fun acc x => acc + f x) c = c + (l.map f).sum := by
  induction l with
  | nil => intro c; simp
  | cons hd tl ih =>
      intro c
      rw [List.foldl_cons, ih]
      simp [List.sum_cons]
      ring

lemma vi_trans_sum_eq_sum (self lake : FrozenLake) (values1 : Vals)
    (state : ℤ × ℤ) (action : Act) :
    vi_trans_sum self lake values1 state action =
      ((lake.get_transitions state action).map
        (fun sp => sp.2 * (self.living_reward + self.gamma * self.s1_reward values1 sp.1))).sum := by
  unfold vi_trans_sum
  rw [foldl_add_eq_sum]
  simp

lemma viSweep_inr_not_mem (self lake : FrozenLake) (threshold : ℚ)
    (values1 : Vals) {s : ℤ × ℤ} :
    ∀ (l : List (ℤ × ℤ)) (values : Vals) (delta : ℚ) (values' : Vals),
      s ∉ l →
      viSweep self lake threshold values1 l values delta = Sum.inr values' →
      values' s = values s := by
  intro l
  induction l with
  | nil =>
      intro values delta values' _ h
      simp only [viSweep] at h
      cases h
      rfl
  | cons hd tl ih =>
      intro values delta values' hs h
      simp only [viSweep] at h
      split at h
      · cases h
      · have := ih (upd values hd (bellman self lake values1 hd)) _ values'
          (fun hmem => hs (by simp [hmem])) h
        rw [this]
        unfold upd
        rw [if_neg (by intro he; exact hs (by simp [he]))]

lemma viSweep_inr_mem (self lake : FrozenLake) (threshold : ℚ)
    (values1 : Vals) :
    ∀ (l : List (ℤ × ℤ)) (values : Vals) (delta : ℚ) (values' : Vals),
      viSweep self lake threshold values1 l values delta = Sum.inr values' →
      ∀ s ∈ l, values' s = bellman self lake values1 s := by
  intro l
  induction l with
  | nil => intro values delta values' _ s hs; cases hs
  | cons hd tl ih =>
      intro values delta values' h s hs
      simp only [viSweep] at h
      split at h
      · cases h
      · by_cases hmem : s ∈ tl
        · exact ih _ _ values' h s hmem
        · have hshd : s = hd := by
            rcases List.mem_cons.mp hs with h' | h'
            · exact h'
            · exact absurd h' hmem
          subst hshd
          rw [viSweep_inr_not_mem self lake threshold values1 tl _ _ values' hmem h]
          unfold upd
          rw [if_pos rfl]

/-- Claim C3: within a value-iteration sweep, every state of the sweep list
is assigned `max_a Q(s,a)`, with
`Q(s,a) = Σ_{(s1,p)} p·(living_reward + γ·v(s1))` where `v(s1)` is the
target reward, the hole reward, `0` for blocked, or the value of `s1` in
the snapshot `values1` taken before the sweep began (`s1_reward`) — the
formula only ever reads the snapshot, never the partially updated table. -/
theorem vi_sweep_bellman
    (self lake : FrozenLake) (threshold : ℚ) (values1 values values' : Vals)
    (delta : ℚ) (l : List (ℤ × ℤ))
    (h : viSweep self lake threshold values1 l values delta = Sum.inr values') :
    ∀ s ∈ l, values' s =
      pymax (self.actions.map (fun a =>
        ((lake.get_transitions s a).map
          (fun sp => sp.2 * (self.living_reward +
            self.gamma * self.s1_reward values1 sp.1))).sum)) := by
  intro s hs
  rw [viSweep_inr_mem self lake threshold values1 l values delta values' h s hs]
  unfold bellman
  simp only [vi_trans_sum_eq_sum]

/-- The 3×1 test scenario of spec §8: `width=3, height=1, start=(0,0),
target={(2,0)}`, free states `(0,0)` and `(1,0)`. -/
def lineLake : FrozenLake := FrozenLake.init 3 1 (0, 0) [(2, 0)] [] []

/-- Witness for C3: the first sweep of value iteration on the 3×1 lake
completes (no early return at threshold 1/1000) and assigns the Bellman
maximum to both free states. -/
theorem vi_sweep_bellman_witness :
    viSweep lineLake lineLake (1/1000) (fun _ => 0) lineLake.states (fun _ => 0) 0 =
      Sum.inr (upd (upd (fun _ => 0) (0, 0) (bellman lineLake lineLake (fun _ => 0) (0, 0)))
        (1, 0) (bellman lineLake lineLake (fun _ => 0) (1, 0))) ∧
    ∀ s ∈ lineLake.states,
      (upd (upd (fun _ => 0) (0, 0) (bellman lineLake lineLake (fun _ => 0) (0, 0)))
        (1, 0) (bellman lineLake lineLake (fun _ => 0) (1, 0))) s =
      pymax (lineLake.actions.map (fun a =>
        ((lineLake.get_transitions s a).map
          (fun sp => sp.2 * (lineLake.living_reward +
            lineLake.gamma * lineLake.s1_reward (fun _ => 0) sp.1))).sum)) :=
  ⟨by with_unfolding_all rfl,
    vi_sweep_bellman lineLake lineLake (1/1000) (fun _ => 0) (fun _ => 0) _ 0
      lineLake.states (by with_unfolding_all rfl)⟩

/-! ### Non-positive thresholds -/

lemma viSweep_inr_of_nonpos (self lake : FrozenLake) (threshold : ℚ)
    (values1 : Vals) (hth : threshold ≤ 0) :
    ∀ (l : List (ℤ × ℤ)) (values : Vals) (delta : ℚ), 0 ≤ delta →
      ∃ v', viSweep self lake threshold values1 l values delta = Sum.inr v' := by
  intro l
  induction l with
  | nil => intro values delta _; exact ⟨values, rfl⟩
  | cons hd tl ih =>
      intro values delta hd0
      have habs : 0 ≤ qabs (bellman self lake values1 hd - values1 hd) := by
        rw [qabs_eq_abs]; exact abs_nonneg _
      have hd0' : 0 ≤ qmax delta (qabs (bellman self lake values1 hd - values1 hd)) := by
        rw [qmax_eq_max]; exact le_trans hd0 (le_max_left _ _)
      obtain ⟨v', hv'⟩ := ih (upd values hd (bellman self lake values1 hd)) _ hd0'
      refine ⟨v', ?_⟩
      simp only [viSweep]
      rw [if_neg (by intro hlt; linarith), hv']

/-- Claim C8: with a non-positive threshold the running `delta` (a maximum
of a starting 0 and absolute values) never drops below the threshold, the
stopping test never fires, and the `while True` loop has no other exit —
`value_iteration` diverges: it returns `none` for every amount of fuel. -/
theorem value_iteration_nonpos_diverges (self lake : FrozenLake)
    (threshold : ℚ) (hth : threshold ≤ 0) :
    ∀ fuel : ℕ, value_iteration self lake threshold fuel = none := by
  have hloop : ∀ (fuel : ℕ) (values : Vals),
      viLoop self lake threshold fuel values = none := by
    intro fuel
    induction fuel with
    | zero => intro values; rfl
    | succ n ih =>
        intro values
        obtain ⟨v', hv'⟩ := viSweep_inr_of_nonpos self lake threshold values hth
          self.states values 0 le_rfl
        simp only [viLoop, hv']
        exact ih v'
  intro fuel
  exact hloop fuel (fun _ => 0)

/-- Witness for C8: concretely, on the 3×1 lake with threshold 0 the
algorithm makes no progress for any specific fuel, e.g. 7. -/
theorem value_iteration_nonpos_diverges_witness :
    value_iteration lineLake lineLake 0 7 = none :=
  value_iteration_nonpos_diverges lineLake lineLake 0 (by norm_num) 7

/-! ### The stopping rule of value iteration -/

lemma qmax_zero_qabs (y : ℚ) : qmax 0 (qabs y) = qabs y := by
  have : 0 ≤ qabs y := by rw [qabs_eq_abs]; exact abs_nonneg y
  unfold qmax
  split_ifs with h
  · rfl
  · linarith

lemma viSweep_of_ge_threshold (self lake : FrozenLake) (threshold : ℚ)
    (values1 : Vals) :
    ∀ (l : List (ℤ × ℤ)) (values : Vals) (delta : ℚ), threshold ≤ delta →
      viSweep self lake threshold values1 l values delta =
        Sum.inr (viSweepFull self lake values1 l values delta).1 := by
  intro l
  induction l with
  | nil => intro values delta _; rfl
  | cons hd tl ih =>
      intro values delta hge
      have hge' : threshold ≤ qmax delta (qabs (bellman self lake values1 hd - values1 hd)) := by
        rw [qmax_eq_max]
        exact le_trans hge (le_max_left _ _)
      simp only [viSweep, viSweepFull]
      rw [if_neg (by intro hlt; linarith)]
      exact ih _ _ hge'

lemma viSweep_eq_first (self lake : FrozenLake) (threshold : ℚ)
    (values1 : Vals) (l : List (ℤ × ℤ)) (values : Vals) :
    viSweep self lake threshold values1 l values 0 =
      viSweepFirst self lake threshold values1 l values := by
  cases l with
  | nil => rfl
  | cons hd tl =>
      simp only [viSweep, viSweepFirst, qmax_zero_qabs]
      split_ifs with h
      · rfl
      · exact viSweep_of_ge_threshold self lake threshold values1 tl _ _ (not_lt.mp h)

lemma viLoop_eq_first (self lake : FrozenLake) (threshold : ℚ) :
    ∀ (fuel : ℕ) (values : Vals),
      viLoop self lake threshold fuel values =
        viLoopFirst self lake threshold fuel values := by
  intro fuel
  induction fuel with
  | zero => intro values; rfl
  | succ n ih =>
      intro values
      simp only [viLoop, viLoopFirst, viSweep_eq_first]
      cases viSweepFirst self lake threshold values self.states values with
      | inl r => rfl
      | inr v' => exact ih v'

/-- Counterexample to C1 as stated: on the 3×1 lake with threshold `3/10`,
`value_iteration` (convergence test inside the per-state loop) returns the
all-zero table after looking at the first state only, while the spec's
full-sweep rule (`value_iteration_spec`) keeps iterating because the
full-sweep `delta` (0.62, attained at state `(1,0)`) is above the
threshold — the two disagree at state `(1,0)`. -/
theorem value_iteration_not_spec_rule :
    0 < (3/10 : ℚ) ∧
    (value_iteration lineLake lineLake (3/10) 5).map (fun v => v (1, 0)) ≠
      (value_iteration_spec lineLake lineLake (3/10) 5).map (fun v => v (1, 0)) :=
  ⟨by norm_num, by with_unfolding_all decide⟩

/-- Claim C1, amended: `value_iteration` tests `delta < threshold` after
every single state update inside the sweep, with `delta` the running
maximum over the states processed so far; since that running maximum never
decreases within a sweep, it terminates precisely when the first state
processed in a sweep changes by less than the threshold — without
examining the remaining free states — and then returns the snapshot taken
before that sweep (the previous table). -/
theorem value_iteration_first_state_rule (self lake : FrozenLake)
    (threshold : ℚ) (fuel : ℕ) :
    value_iteration self lake threshold fuel =
      value_iteration_first self lake threshold fuel :=
  viLoop_eq_first self lake threshold fuel (fun _ => 0)

lemma foldl_qmax_eq_foldl_max (xs : List ℚ) :
    ∀ a : ℚ, xs.foldl qmax a = xs.foldl max a := by
  induction xs with
  | nil => intro a; rfl
  | cons hd tl ih => intro a; simp only [List.foldl_cons, qmax_eq_max, ih]

lemma le_foldl_max (xs : List ℚ) : ∀ a : ℚ, a ≤ xs.foldl max a := by
  induction xs with
  | nil => intro a; exact le_rfl
  | cons hd tl ih =>
      intro a
      exact le_trans (le_max_left a hd) (ih (max a hd))

lemma mem_le_foldl_max (xs : List ℚ) :
    ∀ (a : ℚ) (x : ℚ), x ∈ xs → x ≤ xs.foldl max a := by
  induction xs with
  | nil => intro a x hx; cases hx
  | cons hd tl ih =>
      intro a x hx
      rcases List.mem_cons.mp hx with rfl | hx'
      · exact le_trans (le_max_right a x) (le_foldl_max tl _)
      · exact ih _ x hx'

lemma foldl_max_mem (xs : List ℚ) :
    ∀ a : ℚ, xs.foldl max a = a ∨ xs.foldl max a ∈ xs := by
  induction xs with
  | nil => intro a; exact Or.inl rfl
  | cons hd tl ih =>
      intro a
      rcases ih (max a hd) with h | h
      · rw [List.foldl_cons, h]
        rcases max_choice a hd with h' | h'
        · exact Or.inl h'
        · exact Or.inr (by rw [h']; simp)
      · exact Or.inr (by simp [List.foldl_cons]; right; exact h)

lemma pymax_ge {l : List ℚ} {x : ℚ} (hx : x ∈ l) : x ≤ pymax l := by
  cases l with
  | nil => cases hx
  | cons hd tl =>
      simp only [pymax]
      rw [foldl_qmax_eq_foldl_max]
      rcases List.mem_cons.mp hx with rfl | hx'
      · exact le_foldl_max tl x
      · exact mem_le_foldl_max tl hd x hx'

lemma pymax_mem {l : List ℚ} (hl : l ≠ []) : pymax l ∈ l := by
  cases l with
  | nil => exact absurd rfl hl
  | cons hd tl =>
      simp only [pymax]
      rw [foldl_qmax_eq_foldl_max]
      rcases foldl_max_mem tl hd with h | h
      · rw [h]; simp
      · simp [h]

lemma getD_ne_of_lt_indexOf {l : List ℚ} {a : ℚ} :
    ∀ j, j < List.indexOf a l → l.getD j 0 ≠ a := by
  induction l with
  | nil => intro j hj; simp [List.indexOf] at hj
  | cons hd tl ih =>
      intro j hj
      by_cases hhd : hd = a
      · rw [hhd, List.indexOf_cons_self] at hj
        cases hj
      · rw [List.indexOf_cons_ne tl hhd] at hj
        cases j with
        | zero => simpa using hhd
        | succ k =>
            simp only [List.getD_cons_succ]
            exact ih k (Nat.lt_of_succ_lt_succ hj)

lemma pyargmax_spec (l : List ℚ) (hl : l ≠ []) :
    pyargmax l < l.length ∧
    (∀ j, j < l.length → l.getD j 0 ≤ l.getD (pyargmax l) 0) ∧
    (∀ j, j < pyargmax l → l.getD j 0 < l.getD (pyargmax l) 0) := by
  have hmem := pymax_mem hl
  have hlt : pyargmax l < l.length := List.indexOf_lt_length.2 hmem
  have hget : l.getD (pyargmax l) 0 = pymax l := by
    rw [List.getD_eq_getElem l 0 hlt]
    exact List.getElem_indexOf hlt
  refine ⟨hlt, ?_, ?_⟩
  · intro j hj
    rw [hget, List.getD_eq_getElem l 0 hj]
    exact pymax_ge (List.getElem_mem hj)
  · intro j hj
    have hjlen : j < l.length := lt_trans hj hlt
    have hne : l.getD j 0 ≠ pymax l := getD_ne_of_lt_indexOf j hj
    rw [hget]
    refine lt_of_le_of_ne ?_ hne
    rw [List.getD_eq_getElem l 0 hjlen]
    exact pymax_ge (List.getElem_mem hjlen)

lemma lookup_map_self {α : Type} [BEq α] [LawfulBEq α] (f : α → Act) :
    ∀ (l : List α), ∀ s ∈ l, (l.map (fun x => (x, f x))).lookup s = some (f s) := by
  intro l
  induction l with
  | nil => intro s hs; cases hs
  | cons hd tl ih =>
      intro s hs
      by_cases hshd : s = hd
      · subst hshd
        simp [List.lookup]
      · rcases List.mem_cons.mp hs with h | h
        · exact absurd h hshd
        · simp only [List.map_cons, List.lookup]
          have hbeq : (s == hd) = false := beq_eq_false_iff_ne.mpr hshd
          rw [hbeq]
          exact ih s h

lemma ep_trans_sum_isSome_of_states
    (L : FrozenLake) (width height : ℕ) (start : ℤ × ℤ)
    (targets blocked holes : List (ℤ × ℤ))
    (hL : L = FrozenLake.init width height start targets blocked holes)
    (values : (ℤ × ℤ) → Option ℚ)
    (hv : ∀ s ∈ L.states, (values s).isSome)
    {s : ℤ × ℤ} (hs : s ∈ L.states) (a : Act) :
    (ep_trans_sum L L values s a).isSome := by
  apply ep_trans_sum_isSome
  intro pr hpr
  exact ep_state_reward_isSome L values hv
    (get_transitions_succ_classified L width height start targets blocked holes
      hL hs a pr hpr)

/-- Claim C4: for a value function defined on all free states,
`extract_policy` succeeds and assigns to every free state the action
`actions[argmax(action_sum)]`, where the argmax index is within bounds,
its Q-value is maximal among all four recomputed Q-values, and every
earlier action in the fixed order `(n, s, e, w)` has a strictly smaller
Q-value (`numpy.argmax` takes the first maximising index); and — the
extraction being a pure function of the value table — extracting twice
yields identical policies. -/
theorem extract_policy_argmax
    (L : FrozenLake) (width height : ℕ) (start : ℤ × ℤ)
    (targets blocked holes : List (ℤ × ℤ))
    (hL : L = FrozenLake.init width height start targets blocked holes)
    (values : (ℤ × ℤ) → Option ℚ)
    (hv : ∀ s ∈ L.states, (values s).isSome) :
    ∃ pol, extract_policy L L values = some pol ∧
      (∀ s ∈ L.states, ∃ qs : List ℚ,
        L.actions.mapM (fun a => ep_trans_sum L L values s a) = some qs ∧
        pol.lookup s = some (L.actions.getD (pyargmax qs) Act.n) ∧
        pyargmax qs < qs.length ∧
        (∀ j, j < qs.length → qs.getD j 0 ≤ qs.getD (pyargmax qs) 0) ∧
        (∀ j, j < pyargmax qs → qs.getD j 0 < qs.getD (pyargmax qs) 0)) ∧
      extract_policy L L values = extract_policy L L values := by
  have hA : L.actions = [Act.n, Act.s, Act.e, Act.w] := by rw [hL]; rfl
  have hts : ∀ s ∈ L.states, ∀ a : Act, (ep_trans_sum L L values s a).isSome :=
    fun s hs a => ep_trans_sum_isSome_of_states L width height start targets
      blocked holes hL values hv hs a
  have hsome : ∀ s ∈ L.states, (epActionSums L L values s).isSome :=
    fun s hs => epActionSums_isSome L L values s hA (hts s hs)
  refine ⟨_, extract_policy_eq_map L L values hsome, ?_, rfl⟩
  intro s hs
  obtain ⟨q1, hq1⟩ := Option.isSome_iff_exists.mp (hts s hs Act.n)
  obtain ⟨q2, hq2⟩ := Option.isSome_iff_exists.mp (hts s hs Act.s)
  obtain ⟨q3, hq3⟩ := Option.isSome_iff_exists.mp (hts s hs Act.e)
  obtain ⟨q4, hq4⟩ := Option.isSome_iff_exists.mp (hts s hs Act.w)
  have hqs : L.actions.mapM (fun a => ep_trans_sum L L values s a) =
      some [q1, q2, q3, q4] := by
    rw [hA]
    simp [List.mapM, List.mapM.loop, hq1, hq2, hq3, hq4]
  refine ⟨[q1, q2, q3, q4], hqs, ?_, ?_, ?_, ?_⟩
  · refine (lookup_map_self (epAction L L values) L.states s hs).trans ?_
    congr 1
    unfold epAction epActionSums
    rw [hqs]
  · exact (pyargmax_spec [q1, q2, q3, q4] (by simp)).1
  · exact (pyargmax_spec [q1, q2, q3, q4] (by simp)).2.1
  · exact (pyargmax_spec [q1, q2, q3, q4] (by simp)).2.2

/-- Witness for C4: the argmax properties hold concretely on the
`__main__` environment with the all-zero value dictionary. -/
theorem extract_policy_argmax_witness :
    ∃ pol, extract_policy mainLake mainLake
        (fun s => if s ∈ mainLake.states then some 0 else none) = some pol ∧
      (∀ s ∈ mainLake.states, ∃ qs : List ℚ,
        mainLake.actions.mapM (fun a => ep_trans_sum mainLake mainLake
          (fun s => if s ∈ mainLake.states then some 0 else none) s a) = some qs ∧
        pol.lookup s = some (mainLake.actions.getD (pyargmax qs) Act.n) ∧
        pyargmax qs < qs.length ∧
        (∀ j, j < qs.length → qs.getD j 0 ≤ qs.getD (pyargmax qs) 0) ∧
        (∀ j, j < pyargmax qs → qs.getD j 0 < qs.getD (pyargmax qs) 0)) ∧
      extract_policy mainLake mainLake
          (fun s => if s ∈ mainLake.states then some 0 else none) =
        extract_policy mainLake mainLake
          (fun s => if s ∈ mainLake.states then some 0 else none) :=
  extract_policy_argmax mainLake 8 8 (0, 0) [(3, 4)] [(3, 3), (2, 3), (2, 4)]
    [(4, 0), (4, 1), (3, 0), (3, 1), (6, 4), (6, 5), (0, 7), (0, 6), (1, 7)]
    rfl (fun s => if s ∈ mainLake.states then some 0 else none)
    (by intro s hs; simp [hs])

/-! ### Q-learning -/

/-- Claim C5: every iteration of the `Qlearner` loop updates exactly the
entry `Q(s, chosen)` by
`(1-α)·Q(s,chosen) + α·(living_reward + γ·bootstrap)`, where the sampled
successor `next` comes from `move` on the random stream and `bootstrap` is
the target reward, the hole reward, or the best current Q-value at `next`;
and exactly when `next` is a target or hole the episode budget drops by 1
and the state resets to the start state, otherwise the trajectory
continues from `next`. -/
theorem qlearn_step_update
    (self lake : FrozenLake) (alpha epsilon : ℚ) (num_robots : ℤ)
    (r : ℕ → ℚ) (qs : QState) :
    ∃ (chosen : Act) (next : ℤ × ℤ) (j : ℕ),
      next = lake.move qs.state chosen (r j) ∧
      (qlearnStep self lake alpha epsilon num_robots r qs).Q (qs.state, chosen) =
        (1 - qs.current_alpha) * qs.Q (qs.state, chosen) +
          qs.current_alpha * (self.living_reward + self.gamma *
            (if next ∈ self.targets then self.target_reward
             else if next ∈ self.holes then self.hole_reward
             else (lake.get_best_action_value qs.Q next).2)) ∧
      (∀ k, k ≠ (qs.state, chosen) →
        (qlearnStep self lake alpha epsilon num_robots r qs).Q k = qs.Q k) ∧
      ((next ∈ self.targets ∨ next ∈ self.holes) →
        (qlearnStep self lake alpha epsilon num_robots r qs).robot_count =
            qs.robot_count - 1 ∧
        (qlearnStep self lake alpha epsilon num_robots r qs).state =
            self.initial_state) ∧
      ((next ∉ self.targets ∧ next ∉ self.holes) →
        (qlearnStep self lake alpha epsilon num_robots r qs).robot_count =
            qs.robot_count ∧
        (qlearnStep self lake alpha epsilon num_robots r qs).state = next) := by
  simp only [qlearnStep]
  set choice :=
    (if r qs.i < qs.current_epsilon then
      (pyChoice self.actions (r (qs.i + 1)), qs.i + 2)
    else ((lake.get_best_action_value qs.Q qs.state).1, qs.i + 1)) with hchoice
  refine ⟨choice.1, lake.move qs.state choice.1 (r choice.2), choice.2, rfl,
    ?_, ?_, ?_, ?_⟩ <;>
    by_cases ht : lake.move qs.state choice.1 (r choice.2) ∈ self.targets <;>
    by_cases hh : lake.move qs.state choice.1 (r choice.2) ∈ self.holes <;>
    simp [ht, hh, updQ] <;>
    split_ifs <;>
    simp [updQ] <;>
    (intro a b c h1 h2 h3; exact absurd h3 (h1 h2))

/-- A 2×1 lake: start `(0,0)`, target `(1,0)`, single free state. -/
def twoLake : FrozenLake := FrozenLake.init 2 1 (0, 0) [(1, 0)] [] []

/-- A random stream driving `Qlearner` on `twoLake`: every uniform draw is
0.99 (so every step is greedy), the first five move draws hit the target,
and the later move draws stay in place. -/
def annealStream : ℕ → ℚ := fun i =>
  if i % 2 = 0 then 99/100 else if i < 10 then 0 else 1/2

set_option maxRecDepth 4000 in
/-- Counterexample to C6 as stated: on `twoLake` with
`alpha = epsilon = 0.6` and `num_robots = 6`, after 8 steps of the driven
run the decayed rates are `-1/15`, strictly below the floor
`0.1·0.6 = 0.06` — the per-step decrement `1/num_robots` is applied
whenever the rate is still above the floor and can overshoot it. -/
theorem qlearn_rate_floor_violated :
    ¬ ((qlearnGo twoLake twoLake (3/5) (3/5) 6 annealStream 8
        (initQS twoLake (3/5) (3/5) 6)).current_alpha ≥ 1/10 * (3/5) ∧
       (qlearnGo twoLake twoLake (3/5) (3/5) 6 annealStream 8
        (initQS twoLake (3/5) (3/5) 6)).current_epsilon ≥ 1/10 * (3/5)) := by
  with_unfolding_all decide

lemma qlearnStep_alpha (self lake : FrozenLake) (alpha epsilon : ℚ)
    (num_robots : ℤ) (r : ℕ → ℚ) (qs : QState) :
    ((qlearnStep self lake alpha epsilon num_robots r qs).current_alpha =
        qs.current_alpha ∨
      (1/10 * alpha < qs.current_alpha ∧
        (qlearnStep self lake alpha epsilon num_robots r qs).current_alpha =
          qs.current_alpha - 1 / (num_robots : ℚ))) ∧
    ((qlearnStep self lake alpha epsilon num_robots r qs).current_epsilon =
        qs.current_epsilon ∨
      (1/10 * epsilon < qs.current_epsilon ∧
        (qlearnStep self lake alpha epsilon num_robots r qs).current_epsilon =
          qs.current_epsilon - 1 / (num_robots : ℚ))) := by
  simp only [qlearnStep]
  split_ifs <;> simp_all

/-- Claim C6, amended: the decayed rates can drop below their floors by at
most one decrement: at every step of any run,
`current_alpha > 0.1·alpha - 1/num_robots` and
`current_epsilon > 0.1·epsilon - 1/num_robots` (a decrement happens only
while the rate is still above its floor, so a single overshoot of size
`1/num_robots` is the worst case; there is no clamping at the floor
itself). -/
theorem qlearn_rate_above_floor_margin
    (self lake : FrozenLake) (alpha epsilon : ℚ) (num_robots : ℤ)
    (r : ℕ → ℚ) (ha : 0 ≤ alpha) (he : 0 ≤ epsilon) (hN : 0 < num_robots) :
    ∀ n : ℕ,
      (qlearnGo self lake alpha epsilon num_robots r n
        (initQS self alpha epsilon num_robots)).current_alpha >
          1/10 * alpha - 1 / (num_robots : ℚ) ∧
      (qlearnGo self lake alpha epsilon num_robots r n
        (initQS self alpha epsilon num_robots)).current_epsilon >
          1/10 * epsilon - 1 / (num_robots : ℚ) := by
  have hNq : (0:ℚ) < 1 / (num_robots : ℚ) := by
    apply one_div_pos.mpr
    exact_mod_cast hN
  have hgo : ∀ (n : ℕ) (qs : QState),
      (qs.current_alpha > 1/10 * alpha - 1 / (num_robots : ℚ) ∧
       qs.current_epsilon > 1/10 * epsilon - 1 / (num_robots : ℚ)) →
      ((qlearnGo self lake alpha epsilon num_robots r n qs).current_alpha >
          1/10 * alpha - 1 / (num_robots : ℚ) ∧
       (qlearnGo self lake alpha epsilon num_robots r n qs).current_epsilon >
          1/10 * epsilon - 1 / (num_robots : ℚ)) := by
    intro n
    induction n with
    | zero => intro qs h; exact h
    | succ m ih =>
        intro qs h
        simp only [qlearnGo]
        split_ifs with hrc
        · apply ih
          obtain ⟨hstep_a, hstep_e⟩ :=
            qlearnStep_alpha self lake alpha epsilon num_robots r qs
          constructor
          · rcases hstep_a with heq | ⟨hgt, heq⟩ <;> rw [heq] <;> [exact h.1; linarith]
          · rcases hstep_e with heq | ⟨hgt, heq⟩ <;> rw [heq] <;> [exact h.2; linarith]
        · exact h
  intro n
  apply hgo
  constructor
  · simp only [initQS]
    linarith
  · simp only [initQS]
    linarith

/-- Witness for the amended C6 at the concrete 8-step run of the
counterexample configuration. -/
theorem qlearn_rate_above_floor_margin_witness :
    (0:ℚ) ≤ 3/5 ∧ (0:ℤ) < 6 ∧
    ((qlearnGo twoLake twoLake (3/5) (3/5) 6 annealStream 8
        (initQS twoLake (3/5) (3/5) 6)).current_alpha >
          1/10 * (3/5) - 1 / ((6:ℤ) : ℚ) ∧
     (qlearnGo twoLake twoLake (3/5) (3/5) 6 annealStream 8
        (initQS twoLake (3/5) (3/5) 6)).current_epsilon >
          1/10 * (3/5) - 1 / ((6:ℤ) : ℚ)) :=
  ⟨by norm_num, by norm_num,
    qlearn_rate_above_floor_margin twoLake twoLake (3/5) (3/5) 6 annealStream
      (by norm_num) (by norm_num) (by norm_num) 8⟩

lemma rolloutGo_shape (self : FrozenLake) (policy : (ℤ × ℤ) → Option Act)
    (r : ℕ → ℚ) :
    ∀ (fuel : ℕ) (st : ℤ × ℤ) (rew0 : ℚ) (i : ℕ) (b : Bool) (rew : ℚ) (i' : ℕ),
      rolloutGo self policy r fuel st rew0 i = some (b, rew, i') →
      ∃ (n : ℕ) (endSt : ℤ × ℤ),
        rew = rew0 + n * self.living_reward +
          (if b then self.target_reward else self.hole_reward) ∧
        (if b then endSt ∈ self.targets else endSt ∈ self.holes) := by
  intro fuel
  induction fuel with
  | zero => intro st rew0 i b rew i' h; cases h
  | succ m ih =>
      intro st rew0 i b rew i' h
      simp only [rolloutGo] at h
      split_ifs at h with ht hh
      · obtain ⟨rfl, rfl, rfl⟩ : b = true ∧ rew0 + self.target_reward = rew ∧ i = i' := by
          simpa [Prod.ext_iff] using h
        exact ⟨0, st, by simp, by simpa using ht⟩
      · obtain ⟨rfl, rfl, rfl⟩ : b = false ∧ rew0 + self.hole_reward = rew ∧ i = i' := by
          simpa [Prod.ext_iff] using h
        exact ⟨0, st, by simp, by simpa using hh⟩
      · cases hp : policy st with
        | none => rw [hp] at h; cases h
        | some a =>
            rw [hp] at h
            obtain ⟨n, endSt, hrew, hend⟩ := ih _ _ _ b rew i' h
            refine ⟨n + 1, endSt, ?_, hend⟩
            rw [hrew]
            push_cast
            ring

lemma tpGo_trials (self : FrozenLake) (policy : (ℤ × ℤ) → Option Act)
    (r : ℕ → ℚ) (fuel : ℕ) :
    ∀ (t : ℕ) (i : ℕ) (ns tr ns' tr' : ℚ) (i' : ℕ),
      tpGo self policy r fuel t i ns tr = some (ns', tr', i') →
      ∃ trials : List (Bool × ℚ),
        trials.length = t ∧
        ns' = ns + (trials.countP (fun x => x.1) : ℚ) ∧
        tr' = tr + (trials.map Prod.snd).sum ∧
        ∀ tp ∈ trials, ∃ (j j' : ℕ),
          rolloutGo self policy r fuel self.initial_state 0 j =
            some (tp.1, tp.2, j') := by
  intro t
  induction t with
  | zero =>
      intro i ns tr ns' tr' i' h
      obtain ⟨rfl, rfl, rfl⟩ : ns = ns' ∧ tr = tr' ∧ i = i' := by
        simpa [tpGo, Prod.ext_iff] using h
      exact ⟨[], rfl, by simp, by simp, by simp⟩
  | succ m ih =>
      intro i ns tr ns' tr' i' h
      simp only [tpGo] at h
      cases hr : simple_policy_rollout self policy r fuel i with
      | none => rw [hr] at h; cases h
      | some res =>
          obtain ⟨b, rew, i2⟩ := res
          rw [hr] at h
          obtain ⟨trials, hlen, hns, htr, horig⟩ := ih i2 _ _ ns' tr' i' h
          refine ⟨(b, rew) :: trials, by simp [hlen], ?_, ?_, ?_⟩
          · rw [hns]
            cases b
            · simp [List.countP_cons]
            · simp [List.countP_cons]
              ring
          · rw [htr]
            simp [List.sum_cons]
            ring
          · intro tp htp
            rcases List.mem_cons.mp htp with rfl | htp'
            · exact ⟨i, i2, hr⟩
            · exact horig tp htp'

/-- Claim C7, amended (for positive trial counts): when `test_policy`
returns a pair, it is (number of successful trials / t, total reward / t)
over a list of `t` rollout results, each rollout starting at the fixed
start state, accumulating the living reward once per non-terminal step
and ending with the target reward at a target (success) or the hole
reward at a hole (failure). -/
theorem test_policy_stats
    (self : FrozenLake) (policy : (ℤ × ℤ) → Option Act) (r : ℕ → ℚ)
    (fuel t : ℕ) (p : ℚ × ℚ) (ht : 0 < t)
    (h : test_policy self policy r fuel t = some p) :
    ∃ trials : List (Bool × ℚ),
      trials.length = t ∧
      p = ((trials.countP (fun x => x.1) : ℚ) / t,
           (trials.map Prod.snd).sum / t) ∧
      ∀ tp ∈ trials, ∃ (j j' : ℕ),
        rolloutGo self policy r fuel self.initial_state 0 j =
          some (tp.1, tp.2, j') ∧
        ∃ (n : ℕ) (endSt : ℤ × ℤ),
          tp.2 = n * self.living_reward +
            (if tp.1 then self.target_reward else self.hole_reward) ∧
          (if tp.1 then endSt ∈ self.targets else endSt ∈ self.holes) := by
  unfold test_policy at h
  cases hgo : tpGo self policy r fuel t 0 0 0 with
  | none => rw [hgo] at h; cases h
  | some res =>
      obtain ⟨ns, tr, i'⟩ := res
      rw [hgo] at h
      have htne : t ≠ 0 := by omega
      simp only [htne, if_false] at h
      obtain ⟨trials, hlen, hns, htr, horig⟩ :=
        tpGo_trials self policy r fuel t 0 0 0 ns tr i' hgo
      refine ⟨trials, hlen, ?_, ?_⟩
      · rw [← Option.some_inj.mp h]
        rw [hns, htr]
        simp
      · intro tp htp
        obtain ⟨j, j', hroll⟩ := horig tp htp
        obtain ⟨n, endSt, hrew, hend⟩ :=
          rolloutGo_shape self policy r fuel self.initial_state 0 j tp.1 tp.2 j' hroll
        exact ⟨j, j', hroll, n, endSt, by rw [hrew]; ring, hend⟩

/-- Counterexample to C7 as stated: for trial count `t = 0` the source
raises `ZeroDivisionError` (modelled as `none`) instead of returning the
claimed pair, since the mean over zero trials does not exist. -/
theorem test_policy_zero_trials :
    test_policy twoLake
      (fun s => if s = ((0:ℤ), (0:ℤ)) then some Act.e else none)
      (fun _ => 0) 3 0 = none := by
  rfl

/-- Witness for the amended C7: two east-moving trials on `twoLake` both
succeed in one step, giving success rate 1 and mean reward 9/10. -/
theorem test_policy_stats_witness :
    0 < 2 ∧
    ∃ trials : List (Bool × ℚ),
      trials.length = 2 ∧
      ((1:ℚ), (9/10:ℚ)) = ((trials.countP (fun x => x.1) : ℚ) / 2,
           (trials.map Prod.snd).sum / 2) ∧
      ∀ tp ∈ trials, ∃ (j j' : ℕ),
        rolloutGo twoLake
          (fun s => if s = ((0:ℤ), (0:ℤ)) then some Act.e else none)
          (fun _ => 0) 3 twoLake.initial_state 0 j = some (tp.1, tp.2, j') ∧
        ∃ (n : ℕ) (endSt : ℤ × ℤ),
          tp.2 = n * twoLake.living_reward +
            (if tp.1 then twoLake.target_reward else twoLake.hole_reward) ∧
          (if tp.1 then endSt ∈ twoLake.targets else endSt ∈ twoLake.holes) :=
  ⟨by norm_num,
    test_policy_stats twoLake
      (fun s => if s = ((0:ℤ), (0:ℤ)) then some Act.e else none)
      (fun _ => 0) 3 2 (1, 9/10) (by norm_num) (by with_unfolding_all rfl)⟩

/-! ### Which environment the solver methods read (claim C9) -/

lemma s1_reward_congr (self1 self2 : FrozenLake) (v : Vals)
    (htg : self1.targets = self2.targets) (hho : self1.holes = self2.holes)
    (hbl : self1.blocked = self2.blocked)
    (htr : self1.target_reward = self2.target_reward)
    (hhr : self1.hole_reward = self2.hole_reward) (s : ℤ × ℤ) :
    self1.s1_reward v s = self2.s1_reward v s := by
  unfold FrozenLake.s1_reward
  rw [htg, hho, hbl, htr, hhr]

lemma vi_trans_sum_congr (self1 self2 g1 g2 : FrozenLake) (v : Vals)
    (hT : ∀ s a, g1.get_transitions s a = g2.get_transitions s a)
    (htg : self1.targets = self2.targets) (hho : self1.holes = self2.holes)
    (hbl : self1.blocked = self2.blocked)
    (htr : self1.target_reward = self2.target_reward)
    (hhr : self1.hole_reward = self2.hole_reward)
    (hlr : self1.living_reward = self2.living_reward)
    (hga : self1.gamma = self2.gamma) (s : ℤ × ℤ) (a : Act) :
    vi_trans_sum self1 g1 v s a = vi_trans_sum self2 g2 v s a := by
  unfold vi_trans_sum
  rw [hT]
  congr 1
  funext acc sp
  rw [hlr, hga, s1_reward_congr self1 self2 v htg hho hbl htr hhr]

lemma bellman_congr (self1 self2 g1 g2 : FrozenLake) (v : Vals)
    (hT : ∀ s a, g1.get_transitions s a = g2.get_transitions s a)
    (hact : self1.actions = self2.actions)
    (htg : self1.targets = self2.targets) (hho : self1.holes = self2.holes)
    (hbl : self1.blocked = self2.blocked)
    (htr : self1.target_reward = self2.target_reward)
    (hhr : self1.hole_reward = self2.hole_reward)
    (hlr : self1.living_reward = self2.living_reward)
    (hga : self1.gamma = self2.gamma) (s : ℤ × ℤ) :
    bellman self1 g1 v s = bellman self2 g2 v s := by
  unfold bellman
  rw [hact]
  exact congrArg pymax (List.map_congr_left
    (fun a _ => vi_trans_sum_congr self1 self2 g1 g2 v hT htg hho hbl htr hhr hlr hga s a))

lemma viSweep_congr (self1 self2 g1 g2 : FrozenLake) (threshold : ℚ) (v1 : Vals)
    (hT : ∀ s a, g1.get_transitions s a = g2.get_transitions s a)
    (hact : self1.actions = self2.actions)
    (htg : self1.targets = self2.targets) (hho : self1.holes = self2.holes)
    (hbl : self1.blocked = self2.blocked)
    (htr : self1.target_reward = self2.target_reward)
    (hhr : self1.hole_reward = self2.hole_reward)
    (hlr : self1.living_reward = self2.living_reward)
    (hga : self1.gamma = self2.gamma) :
    ∀ (l : List (ℤ × ℤ)) (values : Vals) (delta : ℚ),
      viSweep self1 g1 threshold v1 l values delta =
        viSweep self2 g2 threshold v1 l values delta := by
  intro l
  induction l with
  | nil => intro values delta; rfl
  | cons hd tl ih =>
      intro values delta
      simp only [viSweep,
        bellman_congr self1 self2 g1 g2 v1 hT hact htg hho hbl htr hhr hlr hga hd]
      split_ifs
      · rfl
      · exact ih _ _

lemma viLoop_congr (self1 self2 g1 g2 : FrozenLake) (threshold : ℚ)
    (hT : ∀ s a, g1.get_transitions s a = g2.get_transitions s a)
    (hst : self1.states = self2.states)
    (hact : self1.actions = self2.actions)
    (htg : self1.targets = self2.targets) (hho : self1.holes = self2.holes)
    (hbl : self1.blocked = self2.blocked)
    (htr : self1.target_reward = self2.target_reward)
    (hhr : self1.hole_reward = self2.hole_reward)
    (hlr : self1.living_reward = self2.living_reward)
    (hga : self1.gamma = self2.gamma) :
    ∀ (fuel : ℕ) (values : Vals),
      viLoop self1 g1 threshold fuel values =
        viLoop self2 g2 threshold fuel values := by
  intro fuel
  induction fuel with
  | zero => intro values; rfl
  | succ n ih =>
      intro values
      simp only [viLoop, hst,
        viSweep_congr self1 self2 g1 g2 threshold values hT hact htg hho hbl
          htr hhr hlr hga]
      cases viSweep self2 g2 threshold values self2.states values 0 with
      | inl r => rfl
      | inr v' => exact ih v'

lemma ep_state_reward_congr (self1 self2 : FrozenLake)
    (values : (ℤ × ℤ) → Option ℚ)
    (htg : self1.targets = self2.targets) (hho : self1.holes = self2.holes)
    (htr : self1.target_reward = self2.target_reward)
    (hhr : self1.hole_reward = self2.hole_reward) (s : ℤ × ℤ) :
    ep_state_reward self1 values s = ep_state_reward self2 values s := by
  unfold ep_state_reward
  rw [htg, hho, htr, hhr]

lemma ep_trans_sum_congr (self1 self2 g1 g2 : FrozenLake)
    (values : (ℤ × ℤ) → Option ℚ)
    (hT : ∀ s a, g1.get_transitions s a = g2.get_transitions s a)
    (htg : self1.targets = self2.targets) (hho : self1.holes = self2.holes)
    (htr : self1.target_reward = self2.target_reward)
    (hhr : self1.hole_reward = self2.hole_reward)
    (hlr : self1.living_reward = self2.living_reward)
    (hga : self1.gamma = self2.gamma) (s : ℤ × ℤ) (a : Act) :
    ep_trans_sum self1 g1 values s a = ep_trans_sum self2 g2 values s a := by
  unfold ep_trans_sum
  rw [hT]
  congr 1
  funext acc sp
  rw [hlr, hga, ep_state_reward_congr self1 self2 values htg hho htr hhr]

lemma extract_policy_congr (self1 self2 g1 g2 : FrozenLake)
    (values : (ℤ × ℤ) → Option ℚ)
    (hT : ∀ s a, g1.get_transitions s a = g2.get_transitions s a)
    (hst : self1.states = self2.states) (hact : self1.actions = self2.actions)
    (htg : self1.targets = self2.targets) (hho : self1.holes = self2.holes)
    (htr : self1.target_reward = self2.target_reward)
    (hhr : self1.hole_reward = self2.hole_reward)
    (hlr : self1.living_reward = self2.living_reward)
    (hga : self1.gamma = self2.gamma) :
    extract_policy self1 g1 values = extract_policy self2 g2 values := by
  unfold extract_policy
  rw [hst]
  congr 1
  funext acc state
  have hf : (fun a => ep_trans_sum self1 g1 values state a) =
      (fun a => ep_trans_sum self2 g2 values state a) :=
    funext (fun a => ep_trans_sum_congr self1 self2 g1 g2 values hT htg hho
      htr hhr hlr hga state a)
  rw [hact, hf]

lemma get_best_action_value_congr (g1 g2 : FrozenLake)
    (hGact : g1.actions = g2.actions) (Q : QTable) (s : ℤ × ℤ) :
    g1.get_best_action_value Q s = g2.get_best_action_value Q s := by
  unfold FrozenLake.get_best_action_value
  rw [hGact]

lemma move_congr (g1 g2 : FrozenLake)
    (hT : ∀ s a, g1.get_transitions s a = g2.get_transitions s a)
    (s : ℤ × ℤ) (a : Act) (u : ℚ) :
    g1.move s a u = g2.move s a u := by
  unfold FrozenLake.move
  rw [hT]

lemma qlearnStep_congr (self1 self2 g1 g2 : FrozenLake)
    (alpha epsilon : ℚ) (num_robots : ℤ) (r : ℕ → ℚ)
    (hT : ∀ s a, g1.get_transitions s a = g2.get_transitions s a)
    (hGact : g1.actions = g2.actions)
    (hact : self1.actions = self2.actions)
    (htg : self1.targets = self2.targets) (hho : self1.holes = self2.holes)
    (htr : self1.target_reward = self2.target_reward)
    (hhr : self1.hole_reward = self2.hole_reward)
    (hlr : self1.living_reward = self2.living_reward)
    (hga : self1.gamma = self2.gamma)
    (hinit : self1.initial_state = self2.initial_state) (qs : QState) :
    qlearnStep self1 g1 alpha epsilon num_robots r qs =
      qlearnStep self2 g2 alpha epsilon num_robots r qs := by
  simp only [qlearnStep, hact, htg, hho, htr, hhr, hlr, hga, hinit,
    get_best_action_value_congr g1 g2 hGact, move_congr g1 g2 hT]

lemma qlearnGo_congr (self1 self2 g1 g2 : FrozenLake)
    (alpha epsilon : ℚ) (num_robots : ℤ) (r : ℕ → ℚ)
    (hT : ∀ s a, g1.get_transitions s a = g2.get_transitions s a)
    (hGact : g1.actions = g2.actions)
    (hact : self1.actions = self2.actions)
    (htg : self1.targets = self2.targets) (hho : self1.holes = self2.holes)
    (htr : self1.target_reward = self2.target_reward)
    (hhr : self1.hole_reward = self2.hole_reward)
    (hlr : self1.living_reward = self2.living_reward)
    (hga : self1.gamma = self2.gamma)
    (hinit : self1.initial_state = self2.initial_state) :
    ∀ (n : ℕ) (qs : QState),
      qlearnGo self1 g1 alpha epsilon num_robots r n qs =
        qlearnGo self2 g2 alpha epsilon num_robots r n qs := by
  intro n
  induction n with
  | zero => intro qs; rfl
  | succ m ih =>
      intro qs
      simp only [qlearnGo,
        qlearnStep_congr self1 self2 g1 g2 alpha epsilon num_robots r hT hGact
          hact htg hho htr hhr hlr hga hinit]
      split_ifs
      · exact ih _
      · rfl

/-- Claim C9: `value_iteration`, `extract_policy` and `Qlearner` read the
module-level global `lake` only through its transition model (its sampled
moves and, in `Qlearner`, its `get_best_action_value` action order), and
read cell classification, rewards, state list and start state only from
the instance: the results are unchanged under any modification of the
global's classification/reward/start fields (provided its transition
function and action tuple stay the same) and under any modification of the
instance's grid-geometry fields `width`, `height` and `success_prob` (the
fields that determine transitions). -/
theorem solver_methods_use_global_transitions
    (self1 self2 g1 g2 : FrozenLake)
    (hT : ∀ s a, g1.get_transitions s a = g2.get_transitions s a)
    (hGact : g1.actions = g2.actions)
    (hst : self1.states = self2.states) (hact : self1.actions = self2.actions)
    (htg : self1.targets = self2.targets) (hho : self1.holes = self2.holes)
    (hbl : self1.blocked = self2.blocked)
    (htr : self1.target_reward = self2.target_reward)
    (hhr : self1.hole_reward = self2.hole_reward)
    (hlr : self1.living_reward = self2.living_reward)
    (hga : self1.gamma = self2.gamma)
    (hinit : self1.initial_state = self2.initial_state) :
    (∀ (threshold : ℚ) (fuel : ℕ),
      value_iteration self1 g1 threshold fuel =
        value_iteration self2 g2 threshold fuel) ∧
    (∀ values : (ℤ × ℤ) → Option ℚ,
      extract_policy self1 g1 values = extract_policy self2 g2 values) ∧
    (∀ (alpha epsilon : ℚ) (num_robots : ℤ) (r : ℕ → ℚ) (n : ℕ) (qs : QState),
      qlearnGo self1 g1 alpha epsilon num_robots r n qs =
        qlearnGo self2 g2 alpha epsilon num_robots r n qs) := by
  refine ⟨?_, ?_, ?_⟩
  · intro threshold fuel
    exact viLoop_congr self1 self2 g1 g2 threshold hT hst hact htg hho hbl
      htr hhr hlr hga fuel (fun _ => 0)
  · intro values
    exact extract_policy_congr self1 self2 g1 g2 values hT hst hact htg hho
      htr hhr hlr hga
  · intro alpha epsilon num_robots r n qs
    exact qlearnGo_congr self1 self2 g1 g2 alpha epsilon num_robots r hT hGact
      hact htg hho htr hhr hlr hga hinit n qs

/-- The `__main__` lake with every classification, reward and start field
changed — but the same transition geometry. -/
def gMod : FrozenLake :=
  { mainLake with
    targets := []
    holes := []
    initial_state := (5, 5)
    gamma := 0
    living_reward := 5
    target_reward := -3
    hole_reward := 7
    states := [] }

/-- The `__main__` lake with its transition geometry changed — but the same
classification, rewards, state list and start state. -/
def selfMod : FrozenLake :=
  { mainLake with width := 99, height := 99, success_prob := 0 }

/-- Witness for C9: with the `__main__` environment as instance against a
classification-scrambled global, and a geometry-scrambled instance against
the `__main__` global, all three solvers coincide. -/
theorem solver_methods_use_global_transitions_witness :
    (∀ (threshold : ℚ) (fuel : ℕ),
      value_iteration mainLake gMod threshold fuel =
        value_iteration selfMod mainLake threshold fuel) ∧
    (∀ values : (ℤ × ℤ) → Option ℚ,
      extract_policy mainLake gMod values =
        extract_policy selfMod mainLake values) ∧
    (∀ (alpha epsilon : ℚ) (num_robots : ℤ) (r : ℕ → ℚ) (n : ℕ) (qs : QState),
      qlearnGo mainLake gMod alpha epsilon num_robots r n qs =
        qlearnGo selfMod mainLake alpha epsilon num_robots r n qs) :=
  solver_methods_use_global_transitions mainLake selfMod gMod mainLake
    (fun _ _ => rfl) rfl rfl rfl rfl rfl rfl rfl rfl rfl rfl rfl
